import Mathlib

/-!
Verification of the SPECFEM++ review-dashboard scripts.

This file gives a shallow embedding, in Lean 4, of the browser-side data
transformations of the dashboard repository:

* `parseTimestamp`, `fetchJSON`, `discoverBenchmarkFiles`,
  `groupFilesByBenchmark`, `getRegionColor` and the daily-averaging part of
  `createPlotlyFigure` from the benchmark plotting script;
* `fetchFailingPRs` (per-PR check fetching, the column set, the column
  comparator and cell rendering) from the PR status-matrix script;
* `STALENESS_CONFIG`, `getBadgeType`, `getBadgeLabel` and
  `checkAndUpdateBadges` from the badge staleness script.

Modelling conventions:

* JavaScript numbers are modelled as exact rationals; JavaScript
  integers (epoch milliseconds) as `Int`.
* JavaScript string comparison (code-unit order, and the default locale
  of `localeCompare`) is modelled as lexicographic comparison of the
  character lists by code point.
* Fallible network activity is an explicit outcome value fed to the
  function under test; a thrown-and-not-caught exception is `Except.error`.
* JavaScript objects used as string-keyed dictionaries are association
  lists in key-insertion order; a `Set` is a duplicate-free list in
  insertion order.
-/

/-! ## JavaScript string and number primitives -/

/-- JavaScript `x % m` for the nonnegative operands used by the scripts:
`x - m * floor (x / m)`. -/
def jsMod (a b : ℚ) : ℚ := a - b * ⌊a / b⌋

/-- JavaScript `s.includes(sub)`: substring containment on the character
lists. -/
def jsIncludes (s sub : String) : Bool := decide (List.IsInfix sub.data s.data)

/-- JavaScript `s.toLowerCase()` on the ASCII strings used by the scripts. -/
def jsToLower (s : String) : String := String.mk (s.data.map Char.toLower)

/-- Three-way lexicographic comparison of character lists by code point,
modelling JavaScript UTF-16 code-unit comparison. -/
def charListCmp : List Char → List Char → Ordering
  | [], [] => .eq
  | [], _ :: _ => .lt
  | _ :: _, [] => .gt
  | a :: as, b :: bs =>
    if a.toNat < b.toNat then .lt
    else if b.toNat < a.toNat then .gt
    else charListCmp as bs

/-- JavaScript `a < b` on strings (code-unit lexicographic order). -/
def jsStrLt (a b : String) : Bool := charListCmp a.data b.data == Ordering.lt

/-- JavaScript `a.localeCompare(b)`, modelled as code-unit lexicographic
comparison. -/
def localeCompare (a b : String) : Int :=
  if jsStrLt a b then -1 else if jsStrLt b a then 1 else 0

/-- Split a character list at every occurrence of a separator, keeping empty
segments, as JavaScript `s.split(sep)` does for a one-character separator. -/
def splitChar (sep : Char) : List Char → List (List Char)
  | [] => [[]]
  | c :: cs =>
    if c = sep then [] :: splitChar sep cs
    else
      match splitChar sep cs with
      | [] => [[c]]
      | s :: ss => (c :: s) :: ss

/-- JavaScript `s.split(sep)` for a one-character separator. -/
def jsSplit (s : String) (sep : Char) : List String :=
  (splitChar sep s.data).map String.mk

/-- Adding an element to a JavaScript `Set` modelled as a duplicate-free
list in insertion order. -/
def setAdd (l : List String) (k : String) : List String :=
  if k ∈ l then l else l ++ [k]

/-! ## Timestamp parsing (plot_benchmarks.js, parseTimestamp) -/

/-- The condition of `parseTimestamp`: the timestamp string has no timezone
indicator, that is no letter Z, no plus sign, and no minus sign at index 10
or later (`!timestampStr.includes('Z') && !timestampStr.includes('+') &&
!timestampStr.includes('-', 10)`). -/
def lacksTimezone (s : String) : Bool :=
  !(s.data.contains 'Z') && !(s.data.contains '+') && !((s.data.drop 10).contains '-')

/-- The string actually handed to `new Date(...)` by `parseTimestamp`:
a trailing Z is appended when the string has no timezone indicator. -/
def normalizeTimestamp (s : String) : String :=
  if lacksTimezone s then s ++ "Z" else s

/-- The function `parseTimestamp`, parameterised by the ECMAScript
date-string parser `dateParse` (mapping a date string to an instant in epoch
milliseconds), whose exact semantics the script does not depend on beyond
being a function of the normalised string. -/
def parseTimestampWith (dateParse : String → Int) (s : String) : Int :=
  dateParse (normalizeTimestamp s)

/-! ## Badge staleness (badge loader script) -/

/-- Staleness thresholds in milliseconds (`STALENESS_CONFIG`). -/
def stalenessConfig : List (String × Int) :=
  [("main", 7 * 24 * 60 * 60 * 1000),
   ("devel", 1 * 24 * 60 * 60 * 1000),
   ("nightly", 1 * 24 * 60 * 60 * 1000)]

/-- Threshold lookup `STALENESS_CONFIG[badgeType]`. -/
def stalenessThresholdOf (badgeType : String) : Int :=
  (stalenessConfig.lookup badgeType).getD 0

/-- The function `getBadgeType`: classify a badge by the patterns in its
source path, defaulting to the category main. -/
def getBadgeType (badgeSrc : String) : String :=
  if jsIncludes badgeSrc "_main.svg" then "main"
  else if jsIncludes badgeSrc "_devel.svg" then "devel"
  else if jsIncludes badgeSrc "nightly" then "nightly"
  else "main"

/-- A monitored badge image: its `src` attribute and its `alt` text. -/
structure BadgeImg where
  src : String
  alt : String
deriving DecidableEq

/-- Remove the first occurrence of `pat` from `l` (JavaScript
`s.replace(pat, '')` with a plain-string pattern). -/
def removeFirstSub : List Char → List Char → List Char
  | [], _ => []
  | x :: xs, pat =>
    if pat.isPrefixOf (x :: xs) then (x :: xs).drop pat.length
    else x :: removeFirstSub xs pat

/-- The function `getBadgeLabel`: the alt text when nonempty, otherwise the
final path component of the source with a first `.svg` removed and
underscores replaced by spaces. -/
def getBadgeLabel (img : BadgeImg) : String :=
  if img.alt ≠ "" then img.alt
  else
    String.mk ((removeFirstSub ((splitChar '/' img.src.data).getLastD []) ".svg".data).map
      (fun c => if c = '_' then ' ' else c))

/-- Outcome of `checkAndUpdateBadges` for one badge image. The out-of-sync
placeholder records the label put on the generated badge; the fresh case
records the query-stripped source and the cache-busting parameter value. -/
inductive BadgeUpdate where
  | errorBadge
  | outOfSync (label : String)
  | fresh (baseSrc : String) (t : Int)
deriving DecidableEq

/-- The per-image body of `checkAndUpdateBadges`, given the fetched last-sync
time (`null` when unavailable) in epoch milliseconds and the current time. -/
def checkAndUpdateBadge (lastSyncTime : Option Int) (currentTime : Int)
    (img : BadgeImg) : BadgeUpdate :=
  match lastSyncTime with
  | none => .errorBadge
  | some t =>
    let ageMs := currentTime - t
    let badgeType := getBadgeType img.src
    if ageMs > stalenessThresholdOf badgeType then
      .outOfSync (getBadgeLabel img)
    else
      .fresh (String.mk ((splitChar '?' img.src.data).headD [])) t

/-! ## JSON values, fetchJSON and manifest discovery (plot_benchmarks.js) -/

/-- JSON values, as produced by `response.json()`. -/
inductive Json where
  | null
  | bool (b : Bool)
  | num (q : ℚ)
  | str (s : String)
  | arr (xs : List Json)
  | obj (fields : List (String × Json))

/-- JavaScript truthiness of a JSON value. -/
def jsTruthy : Json → Bool
  | .null => false
  | .bool b => b
  | .num q => decide (q ≠ 0)
  | .str s => decide (s ≠ "")
  | .arr _ => true
  | .obj _ => true

/-- JavaScript property access `j.k`: a field of an object, `undefined`
(here `none`) otherwise. -/
def jsGetField (j : Json) (k : String) : Option Json :=
  match j with
  | .obj fields => fields.lookup k
  | _ => none

/-- One network fetch as observed by `fetchJSON`: the promise rejects
(network failure), or a response arrives with `response.ok` and a body that
either parses to a JSON value or fails to parse (`none`). -/
inductive FetchOutcome where
  | networkError
  | response (ok : Bool) (body : Option Json)

/-- The function `fetchJSON`: the parsed body on a 2xx response, and `null`
(here `none`) on network failure, non-2xx status, or a JSON parse error, all
of which are caught. -/
def fetchJSON : FetchOutcome → Option Json
  | .networkError => none
  | .response ok body => if ok then body else none

/-- The function `discoverBenchmarkFiles`: the `files` field of the fetched
manifest when the manifest and that field are truthy, and an empty list
otherwise. -/
def discoverBenchmarkFiles (o : FetchOutcome) : Json :=
  match fetchJSON o with
  | none => .arr []
  | some manifest =>
    if jsTruthy manifest then
      match jsGetField manifest "files" with
      | some files => if jsTruthy files then files else .arr []
      | none => .arr []
    else .arr []

/-! ## Grouping records by benchmark (groupFilesByBenchmark) -/

/-- The metadata block of a benchmark record file. -/
structure Metadata where
  benchmark_name : String
  timestamp : String
  total_execution_time : Option ℚ
deriving DecidableEq

/-- One region measurement of a benchmark record. -/
structure RegionMeasurement where
  region : String
  time : ℚ
deriving DecidableEq

/-- One fetched benchmark record file. A missing `metadata` or `regions`
field is `none`. -/
structure Record where
  metadata : Option Metadata
  regions : Option (List RegionMeasurement)
deriving DecidableEq

/-- Pushing a record onto `groups[name]` in a JavaScript object keyed by
strings: the existing entry is extended in place, a fresh key is appended at
the end. -/
def insertRecord : List (String × List Record) → String → Record → List (String × List Record)
  | [], key, r => [(key, [r])]
  | (k, rs) :: rest, key, r =>
    if k = key then (k, rs ++ [r]) :: rest
    else (k, rs) :: insertRecord rest key r

/-- The loop body of `groupFilesByBenchmark`: skip null fetch results and
records without a `metadata` field, push every other record onto the group
named by the prefixed benchmark name. -/
def groupStep (pre : String) (groups : List (String × List Record)) (data : Option Record) :
    List (String × List Record) :=
  match data with
  | none => groups
  | some d =>
    match d.metadata with
    | none => groups
    | some m => insertRecord groups (pre ++ m.benchmark_name) d

/-- The function `groupFilesByBenchmark`: group the non-null records having
a `metadata` field by `pre ++ metadata.benchmark_name`, where `pre` is the
hardware-class prefix argument (named `prefix` in the source). -/
def groupFilesByBenchmark (benchmarkData : List (Option Record)) (pre : String := "") :
    List (String × List Record) :=
  benchmarkData.foldl (groupStep pre) []

/-- Total number of occurrences of a record across all groups. -/
def countInGroups (groups : List (String × List Record)) (r : Record) : Nat :=
  (groups.map (fun g => g.2.count r)).sum

/-! ## Daily averaging within a benchmark group (createPlotlyFigure) -/

/-- One element of the dataPoints array built for a benchmark group: the
parsed timestamp (an instant in epoch milliseconds) and the region list,
with the fallback `data.regions || []` already applied. The hardware and
commit context carried along for hover text does not influence the averaged
values and is omitted. -/
structure DataPoint where
  dateMs : Int
  regions : List RegionMeasurement
deriving DecidableEq

/-- The UTC calendar-day bucket of an instant. Two instants receive the same
`toISOString().split('T')[0]` date string exactly when they lie in the same
whole day counted from the epoch, so the bucket is the floor division of the
epoch milliseconds by one day. -/
def utcDayKey (ms : Int) : Int := Int.fdiv ms 86400000

/-- The bucket `dateGroups[dateStr]` of one UTC day: the data points of the
group falling on that day, in list order. The preliminary sort of the data
points by date permutes the list but, as proved below, does not change any
computed daily value, so it is not modelled. -/
def dayPoints (pts : List DataPoint) (day : Int) : List DataPoint :=
  pts.filter (fun p => decide (utcDayKey p.dateMs = day))

/-- The pair `(regionSums[region], regionCounts[region])` after the per-day
accumulation loops: every region entry bearing the given name adds its time
to the sum and one to the count. -/
def regionSumCount (points : List DataPoint) (region : String) : ℚ × Nat :=
  points.foldl (fun acc p =>
    p.regions.foldl (fun acc r =>
      if r.region = region then (acc.1 + r.time, acc.2 + 1) else acc) acc) (0, 0)

/-- The displayed value `regionData[region][dateIdx]` of a region on a day:
the arithmetic mean sum over count when the region occurs on the day, and
the initial fill value 0 otherwise. -/
def regionDataValue (pts : List DataPoint) (day : Int) (region : String) : ℚ :=
  if (regionSumCount (dayPoints pts day) region).2 = 0 then 0
  else (regionSumCount (dayPoints pts day) region).1 /
    ((regionSumCount (dayPoints pts day) region).2 : ℚ)

/-- The times reported for a region by each data point of a list, flattened
in order. -/
def matchingTimes (points : List DataPoint) (region : String) : List ℚ :=
  (points.map (fun p =>
    (p.regions.filter (fun r => decide (r.region = region))).map RegionMeasurement.time)).flatten

/-! ## Region colors (getRegionColor, createPlotlyFigure) -/

/-- An hsla color; the scripts render it as the string
hsla(hue, 70%, 60%, 0.8). -/
structure Hsla where
  hue : ℚ
  saturation : ℚ
  lightness : ℚ
  alpha : ℚ
deriving DecidableEq

/-- The function `getRegionColor`: golden-angle hue from the index, fixed
saturation, lightness and alpha. The region argument is accepted and ignored
exactly as in the source. -/
def getRegionColor (region : String) (index : Nat) : Hsla :=
  ⟨jsMod ((index : ℚ) * (137508 / 1000)) 360, 70, 60, 4 / 5⟩

/-- Adding the region names of one record to the `allRegions` set, skipping
records whose regions field is missing (`if (data.regions)`). -/
def addRegionsOfRecord (acc : List String) (r : Record) : List String :=
  match r.regions with
  | none => acc
  | some rs => rs.foldl (fun a rm => setAdd a rm.region) acc

/-- The set `allRegions` collected across all benchmark groups and files, in
insertion order. -/
def collectRegions (groups : List (List Record)) : List String :=
  groups.foldl (fun acc files => files.foldl addRegionsOfRecord acc) []

/-- The array `regionList`: the distinct regions sorted by the default
JavaScript sort, that is code-unit lexicographic order. -/
def regionList (groups : List (List Record)) : List String :=
  (collectRegions groups).mergeSort (fun a b => !(jsStrLt b a))

/-- The mapping `colorMap`: each region receives the color of its rank in
`regionList`. -/
def colorMap (groups : List (List Record)) (region : String) : Hsla :=
  getRegionColor region ((regionList groups).indexOf region)

/-! ## PR status matrix (pr_info_fetch.js, fetchFailingPRs) -/

/-- One check run of the check-runs feed: its name, its conclusion (null
while running) and its status. -/
structure CheckRun where
  name : String
  conclusion : Option String
  status : String
deriving DecidableEq

/-- One entry of the combined-status feed: its context name and state. -/
structure StatusEntry where
  context : String
  state : String
deriving DecidableEq

/-- One `await fetch(...)` as observed by the loop body: the promise
rejects, or a response arrives with its `ok` flag and a body that either
parses (`some`) or throws on `response.json()` (`none`). -/
inductive JsFetch (α : Type) where
  | reject
  | response (ok : Bool) (body : Option α)
deriving DecidableEq

/-- One open pull request together with the outcomes of its two per-PR
fetches. -/
structure PRInput where
  number : Nat
  checksFetch : JsFetch (List CheckRun)
  statusFetch : JsFetch (List StatusEntry)
deriving DecidableEq

/-- The value stored in `checks[key]`. -/
structure CellInfo where
  name : String
  status : String
  type : String
deriving DecidableEq

/-- Assignment `checks[key] = v` on a JavaScript object: an existing key
keeps its position and is overwritten, a fresh key is appended. -/
def objInsert : List (String × CellInfo) → String → CellInfo → List (String × CellInfo)
  | [], key, v => [(key, v)]
  | (k, w) :: rest, key, v =>
    if k = key then (k, v) :: rest else (k, w) :: objInsert rest key v

/-- The cell status of a check run: `run.conclusion || run.status`, where a
null or empty conclusion falls back to the status. -/
def checkRunStatus (run : CheckRun) : String :=
  match run.conclusion with
  | some c => if c = "" then run.status else c
  | none => run.status

/-- The closed status vocabulary applied to an external status state. -/
def mapStatusState (s : String) : String :=
  if s = "success" then "success"
  else if s = "failure" then "failure"
  else if s = "error" then "error"
  else if s = "pending" then "pending"
  else "unknown"

/-- The loop over `data.check_runs`: each run becomes the cell keyed
name|github. -/
def buildChecksCells (runs : List CheckRun) : List (String × CellInfo) :=
  runs.foldl (fun cs run =>
    objInsert cs (run.name ++ "|github") ⟨run.name, checkRunStatus run, "github"⟩) []

/-- The loop over `data.statuses`: each entry becomes the cell keyed
context|external. -/
def addStatusCells (cs : List (String × CellInfo)) (sts : List StatusEntry) :
    List (String × CellInfo) :=
  sts.foldl (fun cs st =>
    objInsert cs (st.context ++ "|external") ⟨st.context, mapStatusState st.state, "external"⟩) cs

/-- The per-PR body of the `for (const pr of prs)` loop: both fetches are
awaited, a rejected fetch or a failing `response.json()` throws out of the
whole function (there is no per-PR catch), a non-ok response merely skips
its section. The result is the `checks` cell map of the pull request. -/
def processPR (p : PRInput) : Except Unit (List (String × CellInfo)) :=
  match p.checksFetch with
  | .reject => .error ()
  | .response okC bodyC =>
    match p.statusFetch with
    | .reject => .error ()
    | .response okS bodyS =>
      match (if okC then
          match bodyC with
          | none => Except.error ()
          | some runs => Except.ok (buildChecksCells runs)
        else Except.ok []) with
      | .error e => .error e
      | .ok cs1 =>
        if okS then
          match bodyS with
          | none => .error ()
          | some sts => .ok (addStatusCells cs1 sts)
        else .ok cs1

/-- The whole loop: the rows `prData` and the set `allCheckNames`, or the
exception that aborted the batch. -/
def processAllPRsAux :
    List PRInput → List (PRInput × List (String × CellInfo)) → List String →
      Except Unit (List (PRInput × List (String × CellInfo)) × List String)
  | [], rows, keys => .ok (rows, keys)
  | p :: rest, rows, keys =>
    match processPR p with
    | .error e => .error e
    | .ok cs =>
      processAllPRsAux rest (rows ++ [(p, cs)]) ((cs.map Prod.fst).foldl setAdd keys)

/-- The function `fetchFailingPRs` up to rendering: process every open pull
request in order, starting from empty rows and an empty check-name set. -/
def processAllPRs (prs : List PRInput) :
    Except Unit (List (PRInput × List (String × CellInfo)) × List String) :=
  processAllPRsAux prs [] []

/-- The cell map of one pull request, empty when its processing threw. -/
def rowCells (p : PRInput) : List (String × CellInfo) :=
  match processPR p with
  | .ok cs => cs
  | .error _ => []

/-- A fetch outcome that does not throw inside the loop body: not a
rejection, and with a parseable body whenever the response is ok. -/
def goodFetch {α : Type} : JsFetch α → Prop
  | .reject => False
  | .response ok body => ok = true → body.isSome

/-- Well-formed per-PR feeds: no check name and no status context contains
the separator character of the column keys. -/
def prNamesWellFormedB (p : PRInput) : Bool :=
  (match p.checksFetch with
   | .response _ (some runs) => runs.all (fun r => !(decide ('|' ∈ r.name.data)))
   | _ => true) &&
  (match p.statusFetch with
   | .response _ (some sts) => sts.all (fun st => !(decide ('|' ∈ st.context.data)))
   | _ => true)

/-- The name component `nameA` of a column key: first segment of
`key.split('|')`. -/
def nameOfKey (k : String) : String := (jsSplit k '|').getD 0 ""

/-- The type component `typeA` of a column key: second segment of
`key.split('|')`. -/
def typeOfKey (k : String) : String := (jsSplit k '|').getD 1 ""

/-- The documentation-service test of the comparator: the lowercased name
contains readthedocs or docs/. -/
def isReadTheDocs (n : String) : Bool :=
  jsIncludes (jsToLower n) "readthedocs" || jsIncludes (jsToLower n) "docs/"

/-- The column comparator of `sortedCheckNames`: github type first when the
types differ, documentation-service names last among external columns, and
otherwise `localeCompare` on the names. -/
def compareCheckKeys (a b : String) : Int :=
  if typeOfKey a ≠ typeOfKey b then (if typeOfKey a = "github" then -1 else 1)
  else if typeOfKey a = "external" then
    (if isReadTheDocs (nameOfKey a) ≠ isReadTheDocs (nameOfKey b) then
      (if isReadTheDocs (nameOfKey a) then 1 else -1)
    else localeCompare (nameOfKey a) (nameOfKey b))
  else localeCompare (nameOfKey a) (nameOfKey b)

/-- The comparator as a sorting predicate: a key may stay before another
when the comparator is nonpositive. -/
def checkKeyLe (a b : String) : Bool := decide (compareCheckKeys a b ≤ 0)

/-- The array `sortedCheckNames`: the collected keys sorted stably by the
column comparator. -/
def sortedCheckNames (keys : List String) : List String := keys.mergeSort checkKeyLe

/-- A well-formed column key: exactly one separator, followed by github or
external. Every key the loop builds from pipe-free names has this shape. -/
def wfKeyB (k : String) : Bool :=
  match jsSplit k '|' with
  | [_, t] => (t == "github") || (t == "external")
  | _ => false

/-- A total extension of the column comparator used only to reason about
the sort: it coincides with `checkKeyLe` on well-formed keys. -/
def checkKeyLeT (a b : String) : Bool :=
  if wfKeyB a then (if wfKeyB b then checkKeyLe a b else true)
  else (if wfKeyB b then false else !(jsStrLt b a))

/-- Rank of a column origin in the claimed order: native github columns
first. -/
def originRank (k : String) : Nat := if typeOfKey k = "github" then 0 else 1

/-- Rank of the documentation-service flag in the claimed order: among
external columns, documentation-service names last. -/
def docsRank (k : String) : Nat :=
  if typeOfKey k = "external" ∧ isReadTheDocs (nameOfKey k) = true then 1 else 0

/-- The column order claimed by the specification: native before external,
documentation-service names last among externals, remaining ties broken
alphabetically on the name. -/
def columnOrder (a b : String) : Prop :=
  originRank a < originRank b ∨
    (originRank a = originRank b ∧
      (docsRank a < docsRank b ∨
        (docsRank a = docsRank b ∧ jsStrLt (nameOfKey b) (nameOfKey a) = false)))

/-- The emoji of a cell (`statusEmoji[check.status] || '?'`). -/
def statusEmoji (s : String) : String :=
  if s = "success" then "✓"
  else if s = "failure" then "✗"
  else if s = "error" then "✗"
  else if s = "pending" then "⋯"
  else if s = "in_progress" then "⋯"
  else if s = "queued" then "⋯"
  else if s = "unknown" then "?"
  else if s = "skipped" then "—"
  else "?"

/-- The css class of a populated cell. -/
def statusClass (s : String) : String :=
  if s = "success" then "check-success"
  else if s = "failure" ∨ s = "error" then "check-failure"
  else if s = "pending" ∨ s = "in_progress" ∨ s = "queued" then "check-pending"
  else "check-unknown"

/-- A rendered matrix cell: css class, emoji and title text. -/
structure CellView where
  cssClass : String
  emoji : String
  title : String
deriving DecidableEq

/-- Rendering of the cell of one column for one pull request: a populated
cell from its recorded status, and the distinct not-run cell when the pull
request has no entry for the column. -/
def cellView (checks : List (String × CellInfo)) (key : String) : CellView :=
  match checks.lookup key with
  | some c => ⟨statusClass c.status, statusEmoji c.status, c.name ++ ": " ++ c.status⟩
  | none => ⟨"check-empty", "—", "Not run"⟩

/-! ## Concrete inputs used by witnesses and counterexamples -/

/-- A pull request whose check-runs fetch rejects at the network level. -/
def rejectPR : PRInput := ⟨1, .reject, .response true (some [])⟩

/-- A pull request whose two fetches answer non-2xx. -/
def failPR : PRInput := ⟨1, .response false none, .response false none⟩

/-- A pull request with one successful native check and no statuses. -/
def okPR : PRInput :=
  ⟨2, .response true (some [⟨"build", some "success", "completed"⟩]),
      .response true (some [])⟩

/-- A pull request whose native check name contains the key separator. -/
def pipePR : PRInput :=
  ⟨3, .response true (some [⟨"a|b", some "success", "completed"⟩]),
      .response true (some [⟨"c", "success"⟩])⟩

/-- A pull request with a successful native check and a pending external
status. -/
def wfPR : PRInput :=
  ⟨4, .response true (some [⟨"build", some "success", "completed"⟩]),
      .response true (some [⟨"ci/jenkins", "pending"⟩])⟩

/-- The cell map the loop builds for `wfPR`. -/
def wfCells : List (String × CellInfo) :=
  [("build|github", ⟨"build", "success", "github"⟩),
   ("ci/jenkins|external", ⟨"ci/jenkins", "pending", "external"⟩)]

/-- The example of the specification: two same-day measurements of region
assembly, 2.0 s at midnight and 4.0 s an hour later. -/
def specExamplePts : List DataPoint :=
  [⟨0, [⟨"assembly", 2⟩]⟩, ⟨3600000, [⟨"assembly", 4⟩]⟩]

/-- The same two measurements in the opposite order. -/
def specExamplePtsRev : List DataPoint :=
  [⟨3600000, [⟨"assembly", 4⟩]⟩, ⟨0, [⟨"assembly", 2⟩]⟩]

/-- One benchmark group whose single record reports regions b and a. -/
def regionsGroupsA : List (List Record) :=
  [[{ metadata := none, regions := some [⟨"b", 1⟩, ⟨"a", 2⟩] }]]

/-- Two benchmark groups reporting the same region set a, b split across
different records and groups. -/
def regionsGroupsB : List (List Record) :=
  [[{ metadata := none, regions := some [⟨"a", 2⟩] }],
   [{ metadata := none, regions := some [⟨"b", 1⟩] }]]

/-! ## Theorems -/

/-- C7: for every ISO-8601 timestamp string lacking a timezone indicator,
`parseTimestamp` yields the same instant as parsing the same string with a
trailing Z appended (whatever the underlying date parser does), and the
string handed to the parser always carries a timezone indicator, so no
implicit local-timezone interpretation can occur. -/
theorem c7_naive_timestamp_is_utc (s : String) (h : lacksTimezone s = true) :
    (∀ dateParse : String → Int,
      parseTimestampWith dateParse s = parseTimestampWith dateParse (s ++ "Z")) ∧
    lacksTimezone (normalizeTimestamp s) = false := by
  have hz : lacksTimezone (s ++ "Z") = false := by
    simp [lacksTimezone, String.data_append]
  constructor
  · intro dateParse
    simp [parseTimestampWith, normalizeTimestamp, h, hz]
  · simp [normalizeTimestamp, h, hz]

/-- Witness for C7 at the concrete timezone-naive timestamp
2024-01-15T10:30:00. -/
theorem c7_naive_timestamp_is_utc_witness :
    lacksTimezone "2024-01-15T10:30:00" = true ∧
    (∀ dateParse : String → Int,
      parseTimestampWith dateParse "2024-01-15T10:30:00" =
        parseTimestampWith dateParse ("2024-01-15T10:30:00" ++ "Z")) ∧
    lacksTimezone (normalizeTimestamp "2024-01-15T10:30:00") = false :=
  ⟨by decide, (c7_naive_timestamp_is_utc "2024-01-15T10:30:00" (by decide)).1,
    (c7_naive_timestamp_is_utc "2024-01-15T10:30:00" (by decide)).2⟩

/-- C8: with a sync timestamp T and current time N, a badge is replaced by
the out-of-sync placeholder carrying its label exactly when N - T exceeds
the threshold of its filename category, and otherwise the original image is
kept with its query string replaced by a cache-busting parameter equal
to T. -/
theorem c8_badge_staleness (T N : Int) (img : BadgeImg) :
    (checkAndUpdateBadge (some T) N img = .outOfSync (getBadgeLabel img) ↔
      N - T > stalenessThresholdOf (getBadgeType img.src)) ∧
    (N - T ≤ stalenessThresholdOf (getBadgeType img.src) →
      checkAndUpdateBadge (some T) N img =
        .fresh (String.mk ((splitChar '?' img.src.data).headD [])) T) := by
  constructor
  · constructor
    · intro hupd
      by_contra hage
      simp [checkAndUpdateBadge, if_neg (by omega : ¬(N - T > stalenessThresholdOf (getBadgeType img.src)))] at hupd
    · intro hage
      simp [checkAndUpdateBadge, if_pos hage]
  · intro hage
    simp [checkAndUpdateBadge, if_neg (by omega : ¬(N - T > stalenessThresholdOf (getBadgeType img.src)))]

/-- Witness for C8, the example of the specification: a devel badge whose
sync time lies 30 hours in the past is stale, and the same badge at 12
hours is fresh with cache-busting parameter equal to the sync time. -/
theorem c8_badge_staleness_witness :
    checkAndUpdateBadge (some 0) (30 * 60 * 60 * 1000) ⟨"badges/gnu_devel.svg", "GCC (devel)"⟩ =
      .outOfSync "GCC (devel)" ∧
    checkAndUpdateBadge (some 0) (12 * 60 * 60 * 1000) ⟨"badges/gnu_devel.svg", "GCC (devel)"⟩ =
      .fresh "badges/gnu_devel.svg" 0 := by
  constructor
  · exact (c8_badge_staleness 0 (30 * 60 * 60 * 1000) ⟨"badges/gnu_devel.svg", "GCC (devel)"⟩).1.mpr
      (by decide)
  · have h := (c8_badge_staleness 0 (12 * 60 * 60 * 1000) ⟨"badges/gnu_devel.svg", "GCC (devel)"⟩).2
      (by decide)
    rw [h]
    decide

/-- C10: a badge source path matching none of the three category patterns is
classified as main, so the seven-day threshold applies to it. -/
theorem c10_badge_type_default (src : String)
    (h1 : jsIncludes src "_main.svg" = false)
    (h2 : jsIncludes src "_devel.svg" = false)
    (h3 : jsIncludes src "nightly" = false) :
    getBadgeType src = "main" ∧
    stalenessThresholdOf (getBadgeType src) = 7 * 24 * 60 * 60 * 1000 := by
  have ht : getBadgeType src = "main" := by
    simp [getBadgeType, h1, h2, h3]
  exact ⟨ht, by rw [ht]; decide⟩

/-- Witness for C10 at a concrete uncategorised badge path. -/
theorem c10_badge_type_default_witness :
    jsIncludes "badges/custom_badge.svg" "_main.svg" = false ∧
    getBadgeType "badges/custom_badge.svg" = "main" ∧
    stalenessThresholdOf (getBadgeType "badges/custom_badge.svg") = 7 * 24 * 60 * 60 * 1000 :=
  ⟨by decide,
    (c10_badge_type_default "badges/custom_badge.svg" (by decide) (by decide) (by decide)).1,
    (c10_badge_type_default "badges/custom_badge.svg" (by decide) (by decide) (by decide)).2⟩

/-- C4: manifest discovery returns the `files` array of the manifest when
present, and an empty list in every failure mode — network failure, non-2xx
status, unparseable JSON, or JSON lacking a `files` array — without any
exception escaping (the model is a total function). -/
theorem c4_manifest_discovery (o : FetchOutcome) :
    (∀ fields xs, fetchJSON o = some (.obj fields) →
      fields.lookup "files" = some (.arr xs) →
      discoverBenchmarkFiles o = .arr xs) ∧
    (o = .networkError → discoverBenchmarkFiles o = .arr []) ∧
    (∀ body, o = .response false body → discoverBenchmarkFiles o = .arr []) ∧
    (o = .response true none → discoverBenchmarkFiles o = .arr []) ∧
    (∀ fields, o = .response true (some (.obj fields)) →
      fields.lookup "files" = none →
      discoverBenchmarkFiles o = .arr []) := by
  refine ⟨?_, ?_, ?_, ?_, ?_⟩
  · intro fields xs h1 h2
    simp [discoverBenchmarkFiles, h1, jsTruthy, jsGetField, h2]
  · intro h; subst h; rfl
  · intro body h; subst h; simp [discoverBenchmarkFiles, fetchJSON]
  · intro h; subst h; rfl
  · intro fields h hf
    subst h
    simp [discoverBenchmarkFiles, fetchJSON, jsTruthy, jsGetField, hf]

/-- Witness for C4: a successful fetch of a well-formed manifest yields its
file list, and a non-2xx response yields the empty list. -/
theorem c4_manifest_discovery_witness :
    discoverBenchmarkFiles
      (.response true (some (.obj [("files", .arr [.str "./benchmarks/a/profiles.json"])]))) =
      .arr [.str "./benchmarks/a/profiles.json"] ∧
    discoverBenchmarkFiles (.response false (some (.obj []))) = .arr [] :=
  ⟨(c4_manifest_discovery _).1 [("files", .arr [.str "./benchmarks/a/profiles.json"])]
      [.str "./benchmarks/a/profiles.json"] rfl rfl,
    (c4_manifest_discovery _).2.2.1 _ rfl⟩


theorem count_single {α : Type} [DecidableEq α] (x r : α) :
    List.count x [r] = if x = r then 1 else 0 := by
  by_cases hx : x = r
  · subst hx; simp
  · have hb : (r == x) = false := by
      rw [Bool.eq_false_iff]; intro hc; exact hx (eq_of_beq hc).symm
    simp [List.count_cons, hb, hx]

theorem countInGroups_cons (g : String × List Record) (gs : List (String × List Record))
    (x : Record) : countInGroups (g :: gs) x = g.2.count x + countInGroups gs x := by
  simp [countInGroups]

theorem countInGroups_insertRecord :
    ∀ (groups : List (String × List Record)) (key : String) (r x : Record),
      countInGroups (insertRecord groups key r) x =
        countInGroups groups x + (if x = r then 1 else 0) := by
  intro groups
  induction groups with
  | nil =>
    intro key r x
    rw [insertRecord, countInGroups_cons]
    simp only [countInGroups, List.map_nil, List.sum_nil]
    rw [count_single]
    omega
  | cons g rest ih =>
    intro key r x
    obtain ⟨k0, rs0⟩ := g
    by_cases h : k0 = key
    · subst h
      rw [insertRecord, if_pos rfl, countInGroups_cons, countInGroups_cons]
      simp only [List.count_append]
      rw [count_single]
      omega
    · rw [insertRecord, if_neg h, countInGroups_cons, countInGroups_cons, ih]
      omega

theorem countInGroups_groupFold (pre : String) :
    ∀ (ds : List (Option Record)) (groups0 : List (String × List Record)) (x : Record),
      countInGroups (ds.foldl (groupStep pre) groups0) x =
        countInGroups groups0 x + (if x.metadata.isSome then ds.count (some x) else 0) := by
  intro ds
  induction ds with
  | nil => intro groups0 x; simp
  | cons d ds ih =>
    intro groups0 x
    rw [List.foldl_cons]
    match d with
    | none =>
      rw [show groupStep pre groups0 none = groups0 from rfl, ih]
      have hb : ((none : Option Record) == some x) = false := by
        rw [Bool.eq_false_iff]; intro hc; exact Option.noConfusion (eq_of_beq hc)
      simp [List.count_cons, hb]
    | some r =>
      match hm : r.metadata with
      | none =>
        rw [show groupStep pre groups0 (some r) = groups0 from by simp [groupStep, hm], ih]
        by_cases hx : x = r
        · subst hx
          simp [hm]
        · have hb : ((some r : Option Record) == some x) = false := by
            rw [Bool.eq_false_iff]; intro hc
            exact hx (Option.some.inj (eq_of_beq hc)).symm
          simp [List.count_cons, hb]
      | some m =>
        rw [show groupStep pre groups0 (some r) =
            insertRecord groups0 (pre ++ m.benchmark_name) r from by simp [groupStep, hm]]
        rw [ih, countInGroups_insertRecord]
        by_cases hx : x = r
        · subst hx
          have hb : ((some x : Option Record) == some x) = true := by simp
          simp [hm, List.count_cons, hb]
          omega
        · have hb : ((some r : Option Record) == some x) = false := by
            rw [Bool.eq_false_iff]; intro hc
            exact hx (Option.some.inj (eq_of_beq hc)).symm
          simp [List.count_cons, hb, hx]

theorem insertRecord_shape (pre : String) (Q : String → Prop)
    (hQ : ∀ m : Metadata, Q (pre ++ m.benchmark_name)) :
    ∀ (groups : List (String × List Record)) (key : String) (r : Record),
      (∀ k rs, (k, rs) ∈ groups → Q k ∧ ∀ x ∈ rs, ∃ m, x.metadata = some m ∧
        k = pre ++ m.benchmark_name) →
      (∃ m, r.metadata = some m ∧ key = pre ++ m.benchmark_name) →
      ∀ k rs, (k, rs) ∈ insertRecord groups key r → Q k ∧ ∀ x ∈ rs,
        ∃ m, x.metadata = some m ∧ k = pre ++ m.benchmark_name := by
  intro groups
  induction groups with
  | nil =>
    intro key r _ hr k rs hmem
    rw [insertRecord] at hmem
    simp only [List.mem_singleton] at hmem
    have hk : k = key ∧ rs = [r] := by simpa [Prod.ext_iff] using hmem
    obtain ⟨hk1, hk2⟩ := hk
    subst hk1; subst hk2
    obtain ⟨m, hm, hkey⟩ := hr
    refine ⟨hkey ▸ hQ m, fun x hx => ?_⟩
    simp only [List.mem_singleton] at hx
    subst hx
    exact ⟨m, hm, hkey⟩
  | cons g rest ih =>
    intro key r hgroups hr k rs hmem
    obtain ⟨k0, rs0⟩ := g
    by_cases h : k0 = key
    · rw [insertRecord, if_pos h] at hmem
      simp only [List.mem_cons] at hmem
      rcases hmem with heq | hmem
      · have hk : k = k0 ∧ rs = rs0 ++ [r] := by simpa [Prod.ext_iff] using heq
        have h0 := hgroups k0 rs0 (List.mem_cons_self _ _)
        refine ⟨hk.1 ▸ h0.1, fun x hx => ?_⟩
        have hx2 : x ∈ rs0 ++ [r] := hk.2 ▸ hx
        rcases List.mem_append.mp hx2 with hx1 | hx1
        · obtain ⟨m, hm, hkey⟩ := h0.2 x hx1
          exact ⟨m, hm, hk.1.trans hkey⟩
        · simp only [List.mem_singleton] at hx1
          subst hx1
          obtain ⟨m, hm, hkey⟩ := hr
          exact ⟨m, hm, hk.1.trans (h.trans hkey)⟩
      · exact hgroups k rs (List.mem_cons_of_mem _ hmem)
    · rw [insertRecord, if_neg h] at hmem
      simp only [List.mem_cons] at hmem
      rcases hmem with heq | hmem
      · have hk : k = k0 ∧ rs = rs0 := by simpa [Prod.ext_iff] using heq
        have h0 := hgroups k0 rs0 (List.mem_cons_self _ _)
        refine ⟨hk.1 ▸ h0.1, fun x hx => ?_⟩
        obtain ⟨m, hm, hkey⟩ := h0.2 x (hk.2 ▸ hx)
        exact ⟨m, hm, hk.1.trans hkey⟩
      · exact ih key r (fun k' rs' h' => hgroups k' rs' (List.mem_cons_of_mem _ h')) hr k rs hmem

theorem groupFilesByBenchmark_shape (pre : String) (ds : List (Option Record))
    (Q : String → Prop) (hQ : ∀ m : Metadata, Q (pre ++ m.benchmark_name)) :
    ∀ k rs, (k, rs) ∈ groupFilesByBenchmark ds pre → Q k ∧ ∀ x ∈ rs,
      ∃ m, x.metadata = some m ∧ k = pre ++ m.benchmark_name := by
  have main : ∀ (l : List (Option Record)) (groups0 : List (String × List Record)),
      (∀ k rs, (k, rs) ∈ groups0 → Q k ∧ ∀ x ∈ rs, ∃ m, x.metadata = some m ∧
        k = pre ++ m.benchmark_name) →
      ∀ k rs, (k, rs) ∈ l.foldl (groupStep pre) groups0 →
        Q k ∧ ∀ x ∈ rs, ∃ m, x.metadata = some m ∧ k = pre ++ m.benchmark_name := by
    intro l
    induction l with
    | nil => intro groups0 h0 k rs hmem; exact h0 k rs hmem
    | cons d l ih =>
      intro groups0 h0 k rs hmem
      rw [List.foldl_cons] at hmem
      match d with
      | none => exact ih groups0 h0 k rs hmem
      | some r =>
        match hm : r.metadata with
        | none =>
          rw [show groupStep pre groups0 (some r) = groups0 from by simp [groupStep, hm]] at hmem
          exact ih groups0 h0 k rs hmem
        | some m =>
          rw [show groupStep pre groups0 (some r) =
              insertRecord groups0 (pre ++ m.benchmark_name) r from by simp [groupStep, hm]] at hmem
          exact ih _ (insertRecord_shape pre Q hQ groups0 _ r h0 ⟨m, hm, rfl⟩) k rs hmem
  intro k rs hmem
  exact main ds [] (by simp) k rs hmem

theorem cpu_prefix_ne_gpu_prefix (n n' : String) :
    ("CPU_" ++ n : String) ≠ ("GPU_" ++ n' : String) := by
  intro h
  have hd := congrArg String.data h
  have hc : ("CPU_" ++ n).data = 'C' :: 'P' :: 'U' :: '_' :: n.data := by
    rw [String.data_append]; rfl
  have hg : ("GPU_" ++ n').data = 'G' :: 'P' :: 'U' :: '_' :: n'.data := by
    rw [String.data_append]; rfl
  rw [hc, hg] at hd
  injection hd with h1 _
  exact absurd h1 (by decide)

/-- C3: grouping fetched records by benchmark identifier is a partition of
the records with a `metadata` field: counted across all groups, a record
with metadata occurs exactly as often as it occurs in the input, a record
without metadata occurs in no group (null fetch results can occur in no
group, since groups contain records), every member of a group determines
its group key as prefix plus benchmark name (so a record lies in exactly
one group), and a CPU_-prefixed group key never equals a GPU_-prefixed
group key. -/
theorem c3_grouping_partition (ds ds' : List (Option Record)) (pre : String) :
    (∀ r : Record, r.metadata.isSome →
      countInGroups (groupFilesByBenchmark ds pre) r = ds.count (some r)) ∧
    (∀ r : Record, r.metadata = none →
      countInGroups (groupFilesByBenchmark ds pre) r = 0) ∧
    (∀ k rs, (k, rs) ∈ groupFilesByBenchmark ds pre → ∀ x ∈ rs,
      ∃ m, x.metadata = some m ∧ k = pre ++ m.benchmark_name) ∧
    (∀ k rs k' rs', (k, rs) ∈ groupFilesByBenchmark ds "CPU_" →
      (k', rs') ∈ groupFilesByBenchmark ds' "GPU_" → k ≠ k') := by
  refine ⟨?_, ?_, ?_, ?_⟩
  · intro r hr
    rw [groupFilesByBenchmark, countInGroups_groupFold pre ds [] r]
    simp [countInGroups, hr]
  · intro r hr
    rw [groupFilesByBenchmark, countInGroups_groupFold pre ds [] r]
    simp [countInGroups, hr]
  · intro k rs hmem
    exact (groupFilesByBenchmark_shape pre ds (fun _ => True) (fun _ => trivial) k rs hmem).2
  · intro k rs k' rs' hcpu hgpu
    have h1 := (groupFilesByBenchmark_shape "CPU_" ds (fun key => ∃ n, key = "CPU_" ++ n)
      (fun m => ⟨m.benchmark_name, rfl⟩) k rs hcpu).1
    have h2 := (groupFilesByBenchmark_shape "GPU_" ds' (fun key => ∃ n, key = "GPU_" ++ n)
      (fun m => ⟨m.benchmark_name, rfl⟩) k' rs' hgpu).1
    obtain ⟨n, hn⟩ := h1
    obtain ⟨n', hn'⟩ := h2
    rw [hn, hn']
    exact cpu_prefix_ne_gpu_prefix n n'

/-- Witness for C3 at a concrete record list: one record with metadata, one
null entry, one record without metadata. -/
theorem c3_grouping_partition_witness :
    (Record.mk (some ⟨"kernel_2d", "2024-01-15T10:30:00", none⟩) none).metadata.isSome = true ∧
    countInGroups
      (groupFilesByBenchmark
        [some (Record.mk (some ⟨"kernel_2d", "2024-01-15T10:30:00", none⟩) none), none,
          some (Record.mk none none)] "")
      (Record.mk (some ⟨"kernel_2d", "2024-01-15T10:30:00", none⟩) none) =
      List.count
        (some (Record.mk (some ⟨"kernel_2d", "2024-01-15T10:30:00", none⟩) none))
        [some (Record.mk (some ⟨"kernel_2d", "2024-01-15T10:30:00", none⟩) none), none,
          some (Record.mk none none)] ∧
    countInGroups
      (groupFilesByBenchmark
        [some (Record.mk (some ⟨"kernel_2d", "2024-01-15T10:30:00", none⟩) none), none,
          some (Record.mk none none)] "")
      (Record.mk none none) = 0 :=
  ⟨by decide,
    (c3_grouping_partition _ [] "").1 _ (by decide),
    (c3_grouping_partition _ [] "").2.1 _ rfl⟩

theorem charToNatInj {a b : Char} (h : a.toNat = b.toNat) : a = b :=
  Char.eq_of_val_eq (UInt32.ext h)

theorem stringDataInj {a b : String} (h : a.data = b.data) : a = b := by
  cases a; cases b; exact congrArg String.mk h

theorem merge_congr {α : Type} (le le' : α → α → Bool) :
    ∀ (xs ys : List α), (∀ a ∈ xs, ∀ b ∈ ys, le a b = le' a b) →
      List.merge xs ys le = List.merge xs ys le'
  | [], ys, _ => by simp
  | x :: xs, [], _ => by simp
  | x :: xs, y :: ys, h => by
    simp only [List.merge]
    rw [h x (by simp) y (by simp)]
    split
    · rw [merge_congr le le' xs (y :: ys) (fun a ha b hb => h a (by simp [ha]) b hb)]
    · rw [merge_congr le le' (x :: xs) ys (fun a ha b hb => h a ha b (by simp [hb]))]

theorem mergeSort_congr {α : Type} (le le' : α → α → Bool) :
    ∀ (l : List α), (∀ a ∈ l, ∀ b ∈ l, le a b = le' a b) →
      l.mergeSort le = l.mergeSort le'
  | [], _ => by simp
  | [a], _ => by simp
  | a :: b :: xs, h => by
    have hl1 : (List.splitInTwo ⟨a :: b :: xs, rfl⟩).1.1.length < xs.length + 1 + 1 := by
      simp [List.splitInTwo_fst]; omega
    have hl2 : (List.splitInTwo ⟨a :: b :: xs, rfl⟩).2.1.length < xs.length + 1 + 1 := by
      simp [List.splitInTwo_snd]; omega
    rw [List.mergeSort, List.mergeSort]
    have hsub1 : (List.splitInTwo ⟨a :: b :: xs, rfl⟩).1.1 ⊆ a :: b :: xs := by
      rw [List.splitInTwo_fst]; exact List.take_subset _ _
    have hsub2 : (List.splitInTwo ⟨a :: b :: xs, rfl⟩).2.1 ⊆ a :: b :: xs := by
      rw [List.splitInTwo_snd]; exact List.drop_subset _ _
    rw [mergeSort_congr le le' _ (fun x hx y hy => h x (hsub1 hx) y (hsub1 hy))]
    rw [mergeSort_congr le le' _ (fun x hx y hy => h x (hsub2 hx) y (hsub2 hy))]
    apply merge_congr
    intro x hx y hy
    exact h x (hsub1 (List.mem_mergeSort.mp hx)) y (hsub2 (List.mem_mergeSort.mp hy))
termination_by l => l.length

theorem mergeSort_pair {α : Type} (a b : α) (le : α → α → Bool) :
    List.mergeSort [a, b] le = if le a b then [a, b] else [b, a] := by
  rw [List.mergeSort]
  rw [List.splitInTwo_fst, List.splitInTwo_snd]
  by_cases h : le a b <;> simp [List.merge, h]

theorem charListCmp_eq_iff : ∀ (xs ys : List Char), charListCmp xs ys = .eq ↔ xs = ys := by
  intro xs
  induction xs with
  | nil => intro ys; cases ys <;> simp [charListCmp]
  | cons x xs ih =>
    intro ys
    cases ys with
    | nil => simp [charListCmp]
    | cons y ys =>
      rcases Nat.lt_trichotomy x.toNat y.toNat with h | h | h
      · have hc : charListCmp (x :: xs) (y :: ys) = .lt := by simp [charListCmp, h]
        rw [hc]
        constructor
        · intro hh; exact absurd hh (by decide)
        · intro hh
          injection hh with h1 _
          exact absurd h (by rw [h1]; omega)
      · have hxy : x = y := charToNatInj h
        subst hxy
        have hc : charListCmp (x :: xs) (x :: ys) = charListCmp xs ys := by
          simp [charListCmp]
        rw [hc, ih]
        simp
      · have hc : charListCmp (x :: xs) (y :: ys) = .gt := by
          simp [charListCmp, h, Nat.lt_asymm h]
        rw [hc]
        constructor
        · intro hh; exact absurd hh (by decide)
        · intro hh
          injection hh with h1 _
          exact absurd h (by rw [h1]; omega)

theorem charListCmp_swap : ∀ (xs ys : List Char),
    charListCmp ys xs = (charListCmp xs ys).swap := by
  intro xs
  induction xs with
  | nil => intro ys; cases ys <;> rfl
  | cons x xs ih =>
    intro ys
    cases ys with
    | nil => rfl
    | cons y ys =>
      rcases Nat.lt_trichotomy x.toNat y.toNat with h | h | h
      · simp [charListCmp, h, Nat.lt_asymm h, Ordering.swap]
      · have hxy : x = y := charToNatInj h
        subst hxy
        simp [charListCmp, ih]
      · simp [charListCmp, h, Nat.lt_asymm h, Ordering.swap]

theorem charListCmp_lt_trans : ∀ (xs ys zs : List Char),
    charListCmp xs ys = .lt → charListCmp ys zs = .lt → charListCmp xs zs = .lt := by
  intro xs
  induction xs with
  | nil =>
    intro ys zs h1 h2
    cases ys with
    | nil => exact absurd h1 (by simp [charListCmp])
    | cons y ys =>
      cases zs with
      | nil => exact absurd h2 (by simp [charListCmp])
      | cons z zs => simp [charListCmp]
  | cons x xs ih =>
    intro ys zs h1 h2
    cases ys with
    | nil => exact absurd h1 (by simp [charListCmp])
    | cons y ys =>
      cases zs with
      | nil => exact absurd h2 (by simp [charListCmp])
      | cons z zs =>
        rcases Nat.lt_trichotomy x.toNat y.toNat with hxy | hxy | hxy
        · rcases Nat.lt_trichotomy y.toNat z.toNat with hyz | hyz | hyz
          · simp [charListCmp, show x.toNat < z.toNat by omega]
          · simp [charListCmp, show x.toNat < z.toNat by omega]
          · exact absurd h2 (by simp [charListCmp, Nat.lt_asymm hyz, hyz])
        · have hx : x = y := charToNatInj hxy
          subst hx
          have h1' : charListCmp xs ys = .lt := by simpa [charListCmp] using h1
          rcases Nat.lt_trichotomy x.toNat z.toNat with hxz | hxz | hxz
          · simp [charListCmp, hxz]
          · have hz : x = z := charToNatInj hxz
            subst hz
            have h2' : charListCmp ys zs = .lt := by simpa [charListCmp] using h2
            simpa [charListCmp] using ih ys zs h1' h2'
          · exact absurd h2 (by simp [charListCmp, Nat.lt_asymm hxz, hxz])
        · exact absurd h1 (by simp [charListCmp, Nat.lt_asymm hxy, hxy])

theorem ordering_beq_lt {o : Ordering} (h : (o == Ordering.lt) = true) : o = Ordering.lt := by
  cases o <;> first | rfl | exact absurd h (by decide)

theorem jsStrLt_cases (a b : String) :
    (jsStrLt a b = true ∧ jsStrLt b a = false ∧ a ≠ b) ∨
    (jsStrLt a b = false ∧ jsStrLt b a = false ∧ a = b) ∨
    (jsStrLt a b = false ∧ jsStrLt b a = true ∧ a ≠ b) := by
  cases h : charListCmp a.data b.data with
  | lt =>
    left
    have hs : charListCmp b.data a.data = .gt := by
      rw [charListCmp_swap a.data b.data, h]; rfl
    refine ⟨by simp only [jsStrLt, h]; rfl, by simp only [jsStrLt, hs]; rfl, ?_⟩
    intro he
    subst he
    have := (charListCmp_eq_iff a.data a.data).mpr rfl
    simp [this] at h
  | eq =>
    right; left
    have he : a = b := stringDataInj ((charListCmp_eq_iff _ _).mp h)
    have hs : charListCmp b.data a.data = .eq := by
      rw [charListCmp_swap a.data b.data, h]; rfl
    exact ⟨by simp only [jsStrLt, h]; rfl, by simp only [jsStrLt, hs]; rfl, he⟩
  | gt =>
    right; right
    have hs : charListCmp b.data a.data = .lt := by
      rw [charListCmp_swap a.data b.data, h]; rfl
    refine ⟨by simp only [jsStrLt, h]; rfl, by simp only [jsStrLt, hs]; rfl, ?_⟩
    intro he
    subst he
    have := (charListCmp_eq_iff a.data a.data).mpr rfl
    simp [this] at h

theorem jsStrLt_trans {a b c : String} (h1 : jsStrLt a b = true) (h2 : jsStrLt b c = true) :
    jsStrLt a c = true := by
  simp only [jsStrLt] at h1 h2 ⊢
  rw [charListCmp_lt_trans _ _ _ (ordering_beq_lt h1) (ordering_beq_lt h2)]
  rfl

theorem leS_trans (a b c : String) (h1 : (!(jsStrLt b a)) = true)
    (h2 : (!(jsStrLt c b)) = true) : (!(jsStrLt c a)) = true := by
  simp only [Bool.not_eq_true'] at h1 h2 ⊢
  rcases jsStrLt_cases c a with ⟨hca, _, _⟩ | ⟨hca, _, _⟩ | ⟨hca, _, _⟩
  · rcases jsStrLt_cases a b with ⟨hab, _, _⟩ | ⟨_, _, he⟩ | ⟨_, hba, _⟩
    · have := jsStrLt_trans hca hab
      rw [this] at h2
      exact absurd h2 (by simp)
    · subst he
      rw [hca] at h2
      exact absurd h2 (by simp)
    · rw [hba] at h1
      exact absurd h1 (by simp)
  · exact hca
  · exact hca

theorem leS_total (a b : String) : ((!(jsStrLt b a)) || (!(jsStrLt a b))) = true := by
  rcases jsStrLt_cases a b with ⟨_, hba, _⟩ | ⟨hab, _, _⟩ | ⟨hab, _, _⟩
  · simp [hba]
  · simp [hab]
  · simp [hab]

theorem leS_antisymm (a b : String) (h1 : (!(jsStrLt b a)) = true)
    (h2 : (!(jsStrLt a b)) = true) : a = b := by
  simp only [Bool.not_eq_true'] at h1 h2
  rcases jsStrLt_cases a b with ⟨hab, _, _⟩ | ⟨_, _, he⟩ | ⟨_, hba, _⟩
  · rw [hab] at h2; exact absurd h2 (by simp)
  · exact he
  · rw [hba] at h1; exact absurd h1 (by simp)

theorem regionFoldInner (region : String) :
    ∀ (rs : List RegionMeasurement) (acc : ℚ × Nat),
      rs.foldl (fun acc r =>
        if r.region = region then (acc.1 + r.time, acc.2 + 1) else acc) acc =
      (acc.1 + ((rs.filter (fun r => decide (r.region = region))).map RegionMeasurement.time).sum,
       acc.2 +
        ((rs.filter (fun r => decide (r.region = region))).map RegionMeasurement.time).length) := by
  intro rs
  induction rs with
  | nil => intro acc; simp
  | cons r rs ih =>
    intro acc
    rw [List.foldl_cons]
    by_cases h : r.region = region
    · rw [if_pos h, ih, List.filter_cons_of_pos (by simpa using h)]
      simp only [List.map_cons, List.sum_cons, List.length_cons, Prod.mk.injEq]
      constructor
      · ring
      · omega
    · rw [if_neg h, ih, List.filter_cons_of_neg (by simpa using h)]

theorem regionSumCount_eq (region : String) :
    ∀ (points : List DataPoint),
      regionSumCount points region =
        ((matchingTimes points region).sum, (matchingTimes points region).length) := by
  have outer : ∀ (points : List DataPoint) (acc : ℚ × Nat),
      points.foldl (fun acc p =>
        p.regions.foldl (fun acc r =>
          if r.region = region then (acc.1 + r.time, acc.2 + 1) else acc) acc) acc =
      (acc.1 + (matchingTimes points region).sum,
       acc.2 + (matchingTimes points region).length) := by
    intro points
    induction points with
    | nil => intro acc; simp [matchingTimes]
    | cons p ps ih =>
      intro acc
      rw [List.foldl_cons, regionFoldInner region, ih]
      simp only [matchingTimes, List.map_cons, List.flatten_cons, List.sum_append,
        List.length_append, Prod.mk.injEq]
      constructor
      · ring
      · omega
  intro points
  rw [regionSumCount, outer]
  simp

/-- C2: permuting the records of a single UTC calendar day does not change
the computed per-region daily average of that day. -/
theorem c2_daily_average_reorder (pts pts' : List DataPoint) (d : Int)
    (hday : ∀ p ∈ pts, utcDayKey p.dateMs = d) (hperm : pts.Perm pts') (region : String) :
    regionDataValue pts d region = regionDataValue pts' d region := by
  have hp : (dayPoints pts d).Perm (dayPoints pts' d) := hperm.filter _
  have hmap := hp.map (fun p : DataPoint =>
    (p.regions.filter (fun r => decide (r.region = region))).map RegionMeasurement.time)
  have hsum : (matchingTimes (dayPoints pts d) region).sum =
      (matchingTimes (dayPoints pts' d) region).sum := by
    simp only [matchingTimes, List.sum_flatten]
    exact (hmap.map List.sum).sum_eq
  have hlen : (matchingTimes (dayPoints pts d) region).length =
      (matchingTimes (dayPoints pts' d) region).length := by
    simp only [matchingTimes, List.length_flatten]
    exact (hmap.map List.length).sum_eq
  rw [regionDataValue, regionDataValue, regionSumCount_eq, regionSumCount_eq]
  rw [hsum, hlen]

/-- Witness for C2: the two same-day measurements of the specification
example, in both orders. -/
theorem c2_daily_average_reorder_witness :
    regionDataValue specExamplePts 0 "assembly" =
      regionDataValue specExamplePtsRev 0 "assembly" :=
  c2_daily_average_reorder specExamplePts specExamplePtsRev 0 (by decide)
    (List.Perm.swap _ _ _) "assembly"

theorem sum_map_const_one {α : Type} (g : α → Nat) :
    ∀ (l : List α), (∀ a ∈ l, g a = 1) → (l.map g).sum = l.length := by
  intro l
  induction l with
  | nil => intro _; simp
  | cons a l ih =>
    intro h
    rw [List.map_cons, List.sum_cons, h a (List.mem_cons_self _ _),
      ih (fun x hx => h x (List.mem_cons_of_mem _ hx)), List.length_cons]
    omega

/-- C1: on a UTC calendar day holding N records of a benchmark group, a
region reported exactly once by each of the N records displays the
arithmetic mean of its reported times across the N records, and a region
absent from every record of the day displays the value zero rather than a
missing value (the displayed value is total). -/
theorem c1_daily_average (pts : List DataPoint) (d : Int) (x : String)
    (hN : 0 < (dayPoints pts d).length) :
    ((∀ p ∈ dayPoints pts d,
        (p.regions.filter (fun r => decide (r.region = x))).length = 1) →
      regionDataValue pts d x =
        (matchingTimes (dayPoints pts d) x).sum / ((dayPoints pts d).length : ℚ)) ∧
    ((∀ p ∈ dayPoints pts d,
        p.regions.filter (fun r => decide (r.region = x)) = []) →
      regionDataValue pts d x = 0) := by
  constructor
  · intro h1
    have hlen : (matchingTimes (dayPoints pts d) x).length = (dayPoints pts d).length := by
      simp only [matchingTimes, List.length_flatten, List.map_map]
      exact sum_map_const_one _ _ (fun p hp => by
        simp only [Function.comp]
        rw [List.length_map]
        exact h1 p hp)
    rw [regionDataValue, regionSumCount_eq, hlen]
    rw [if_neg (by omega : ¬((dayPoints pts d).length = 0))]
  · intro h2
    have hlen : (matchingTimes (dayPoints pts d) x).length = 0 := by
      simp only [matchingTimes, List.length_flatten, List.map_map]
      apply List.sum_eq_zero
      intro n hn
      obtain ⟨p, hp, rfl⟩ := List.mem_map.mp hn
      simp [Function.comp, h2 p hp]
    rw [regionDataValue, regionSumCount_eq, hlen]
    simp

/-- Witness for C1, the end-to-end example of the specification: region
assembly reported as 2.0 s and 4.0 s on the same UTC day averages to a
3.0 s segment, and a region absent from both records displays zero. -/
theorem c1_daily_average_witness :
    0 < (dayPoints specExamplePts 0).length ∧
    regionDataValue specExamplePts 0 "assembly" = 3 ∧
    regionDataValue specExamplePts 0 "absent_region" = 0 := by
  refine ⟨by decide, ?_, ?_⟩
  · have h := (c1_daily_average specExamplePts 0 "assembly" (by decide)).1 (by decide)
    rw [h]
    rw [show matchingTimes (dayPoints specExamplePts 0) "assembly" = [2, 4] from rfl]
    rw [show (dayPoints specExamplePts 0).length = 2 from rfl]
    rw [List.sum_cons, List.sum_cons, List.sum_nil]
    norm_num
  · exact (c1_daily_average specExamplePts 0 "absent_region" (by decide)).2 (by decide)

theorem nodup_setAdd {l : List String} {k : String} (h : l.Nodup) : (setAdd l k).Nodup := by
  by_cases hk : k ∈ l
  · simpa [setAdd, hk] using h
  · rw [setAdd, if_neg hk]
    exact List.Nodup.append h (List.nodup_singleton k)
      (fun a ha hb => by
        simp only [List.mem_singleton] at hb
        exact hk (hb ▸ ha))

theorem nodup_foldl_setAdd {β : Type} (g : β → String) :
    ∀ (xs : List β) (acc : List String), acc.Nodup →
      (xs.foldl (fun a x => setAdd a (g x)) acc).Nodup := by
  intro xs
  induction xs with
  | nil => intro acc h; exact h
  | cons x xs ih =>
    intro acc h
    rw [List.foldl_cons]
    exact ih _ (nodup_setAdd h)

theorem nodup_addRegionsOfRecord (r : Record) {acc : List String} (h : acc.Nodup) :
    (addRegionsOfRecord acc r).Nodup := by
  rw [addRegionsOfRecord]
  match r.regions with
  | none => exact h
  | some rs => exact nodup_foldl_setAdd (fun rm => rm.region) rs acc h

theorem collectRegions_nodup (groups : List (List Record)) :
    (collectRegions groups).Nodup := by
  have inner : ∀ (files : List Record) (acc : List String), acc.Nodup →
      (files.foldl addRegionsOfRecord acc).Nodup := by
    intro files
    induction files with
    | nil => intro acc h; exact h
    | cons r files ih =>
      intro acc h
      rw [List.foldl_cons]
      exact ih _ (nodup_addRegionsOfRecord r h)
  have outer : ∀ (gs : List (List Record)) (acc : List String), acc.Nodup →
      (gs.foldl (fun acc files => files.foldl addRegionsOfRecord acc) acc).Nodup := by
    intro gs
    induction gs with
    | nil => intro acc h; exact h
    | cons files gs ih =>
      intro acc h
      rw [List.foldl_cons]
      exact ih _ (inner files acc h)
  exact outer groups [] List.nodup_nil

/-- C9: the color of a region depends only on its rank in the sorted list
of all distinct regions: two group structures exposing the same region set
produce the same sorted region list and the same color for every region,
and the color at rank i has hue (i * 137.508) mod 360 with fixed
saturation, lightness and alpha. -/
theorem c9_region_color_pure (gs1 gs2 : List (List Record))
    (h : ∀ s, s ∈ collectRegions gs1 ↔ s ∈ collectRegions gs2) :
    regionList gs1 = regionList gs2 ∧
    (∀ region, colorMap gs1 region = colorMap gs2 region) ∧
    (∀ i (hi : i < (regionList gs1).length),
      colorMap gs1 ((regionList gs1).get ⟨i, hi⟩) =
        ⟨jsMod ((i : ℚ) * (137508 / 1000)) 360, 70, 60, 4 / 5⟩) := by
  have hnd1 : (regionList gs1).Nodup :=
    ((List.mergeSort_perm _ _).nodup_iff).mpr (collectRegions_nodup gs1)
  have hnd2 : (regionList gs2).Nodup :=
    ((List.mergeSort_perm _ _).nodup_iff).mpr (collectRegions_nodup gs2)
  have hmem : ∀ a, a ∈ regionList gs1 ↔ a ∈ regionList gs2 := by
    intro a
    rw [regionList, regionList, List.mem_mergeSort, List.mem_mergeSort]
    exact h a
  have hperm : (regionList gs1).Perm (regionList gs2) :=
    (List.perm_ext_iff_of_nodup hnd1 hnd2).mpr hmem
  have hsorted1 : List.Pairwise (fun a b => (!(jsStrLt b a)) = true) (regionList gs1) :=
    List.sorted_mergeSort leS_trans (fun a b => leS_total a b) _
  have hsorted2 : List.Pairwise (fun a b => (!(jsStrLt b a)) = true) (regionList gs2) :=
    List.sorted_mergeSort leS_trans (fun a b => leS_total a b) _
  have heq : regionList gs1 = regionList gs2 := by
    haveI : IsAntisymm String (fun a b => (!(jsStrLt b a)) = true) :=
      ⟨fun a b h1 h2 => leS_antisymm a b h1 h2⟩
    exact List.eq_of_perm_of_sorted hperm hsorted1 hsorted2
  refine ⟨heq, fun region => by rw [colorMap, colorMap, heq], fun i hi => ?_⟩
  have hidx : (regionList gs1).indexOf ((regionList gs1).get ⟨i, hi⟩) = i :=
    List.get_indexOf hnd1 ⟨i, hi⟩
  rw [colorMap, hidx]
  rfl

/-- Witness for C9: a single group reporting regions b then a, against two
groups reporting a and b separately, expose the same region set and get the
same sorted region list and colors; the region of rank one receives the
golden-angle hue of index one. -/
theorem c9_region_color_pure_witness :
    regionList regionsGroupsA = regionList regionsGroupsB ∧
    colorMap regionsGroupsA "a" = colorMap regionsGroupsB "a" ∧
    colorMap regionsGroupsA "b" =
      ⟨jsMod (((1 : Nat) : ℚ) * (137508 / 1000)) 360, 70, 60, 4 / 5⟩ := by
  have hA : collectRegions regionsGroupsA = ["b", "a"] := rfl
  have hB : collectRegions regionsGroupsB = ["a", "b"] := rfl
  have h : ∀ s, s ∈ collectRegions regionsGroupsA ↔ s ∈ collectRegions regionsGroupsB := by
    intro s
    rw [hA, hB]
    simp only [List.mem_cons, List.not_mem_nil, or_false]
    exact or_comm
  have hth := c9_region_color_pure regionsGroupsA regionsGroupsB h
  have hlist : regionList regionsGroupsA = ["a", "b"] := by
    rw [regionList, hA, mergeSort_pair]
    simp only [show (!(jsStrLt "a" "b")) = false from by decide]
    simp
  have hlen : 1 < (regionList regionsGroupsA).length := by
    rw [hlist]
    decide
  have hget : (regionList regionsGroupsA).get ⟨1, hlen⟩ = "b" := by
    simp [hlist]
  refine ⟨hth.1, hth.2.1 "a", ?_⟩
  have h3 := hth.2.2 1 hlen
  rw [hget] at h3
  exact h3

/-- C5 counterexample: a network-level rejection of the first pull
request's check-runs fetch throws past the loop, so the whole batch aborts
and the remaining pull request is never processed; the claim that the
failing pull request merely gets a sparser row is false for this failure
mode. -/
theorem c5_fetch_failure_counterexample :
    processAllPRs [rejectPR, okPR] = .error () := rfl

theorem processPR_ok_of_good (p : PRInput) (hc : goodFetch p.checksFetch)
    (hs : goodFetch p.statusFetch) : ∃ cs, processPR p = .ok cs := by
  cases hpc : p.checksFetch with
  | reject => rw [hpc] at hc; exact hc.elim
  | response okC bodyC =>
    cases hps : p.statusFetch with
    | reject => rw [hps] at hs; exact hs.elim
    | response okS bodyS =>
      rw [hpc] at hc
      rw [hps] at hs
      have hcs : ∃ cs1, (if okC then
          match bodyC with
          | none => Except.error ()
          | some runs => Except.ok (buildChecksCells runs)
        else Except.ok ([] : List (String × CellInfo))) = .ok cs1 := by
        cases okC with
        | false => exact ⟨[], rfl⟩
        | true =>
          obtain ⟨runs, hruns⟩ := Option.isSome_iff_exists.mp (hc rfl)
          exact ⟨buildChecksCells runs, by rw [hruns]; rfl⟩
      obtain ⟨cs1, hcs1⟩ := hcs
      cases okS with
      | false => exact ⟨cs1, by simp [processPR, hpc, hps, hcs1]⟩
      | true =>
        obtain ⟨sts, hsts⟩ := Option.isSome_iff_exists.mp (hs rfl)
        exact ⟨addStatusCells cs1 sts, by simp [processPR, hpc, hps, hcs1, hsts]⟩

theorem processAllPRsAux_ok (prs : List PRInput)
    (hgood : ∀ p ∈ prs, goodFetch p.checksFetch ∧ goodFetch p.statusFetch) :
    ∀ rows keys, processAllPRsAux prs rows keys =
      .ok (rows ++ prs.map (fun p => (p, rowCells p)),
           prs.foldl (fun acc p => ((rowCells p).map Prod.fst).foldl setAdd acc) keys) := by
  induction prs with
  | nil => intro rows keys; simp [processAllPRsAux]
  | cons p rest ih =>
    intro rows keys
    obtain ⟨cs, hcs⟩ := processPR_ok_of_good p (hgood p (List.mem_cons_self _ _)).1
      (hgood p (List.mem_cons_self _ _)).2
    have hrc : rowCells p = cs := by rw [rowCells, hcs]
    simp only [processAllPRsAux, hcs]
    rw [ih (fun q hq => hgood q (List.mem_cons_of_mem _ hq))]
    rw [List.map_cons, List.foldl_cons, hrc]
    simp [List.append_assoc]

/-- C5 (amended): when every per-PR fetch resolves to a response whose body
parses whenever the response is ok, the batch never aborts: every open pull
request gets a matrix row, and a pull request whose two fetches answered
non-2xx gets a row with no populated cells. A rejected fetch or a failing
body parse, by contrast, aborts the whole batch. -/
theorem c5_pr_fetch_failure (prs : List PRInput)
    (hgood : ∀ p ∈ prs, goodFetch p.checksFetch ∧ goodFetch p.statusFetch) :
    (∃ rows keys, processAllPRs prs = .ok (rows, keys) ∧ rows.map Prod.fst = prs) ∧
    (∀ p ∈ prs, ∀ okC bodyC okS bodyS,
      p.checksFetch = .response okC bodyC → p.statusFetch = .response okS bodyS →
      okC = false → okS = false → processPR p = .ok []) := by
  constructor
  · refine ⟨prs.map (fun p => (p, rowCells p)),
      prs.foldl (fun acc p => ((rowCells p).map Prod.fst).foldl setAdd acc) [], ?_, ?_⟩
    · rw [processAllPRs, processAllPRsAux_ok prs hgood [] []]
      simp
    · rw [List.map_map]
      rw [show (Prod.fst ∘ fun p : PRInput => (p, rowCells p)) = id from rfl]
      exact List.map_id prs
  · intro p _ okC bodyC okS bodyS hpc hps hokC hokS
    subst hokC
    subst hokS
    simp [processPR, hpc, hps]

/-- Witness for C5 (amended): a pull request answered with two non-2xx
responses does not abort the batch containing a healthy pull request, and
its own row has no populated cells. -/
theorem c5_pr_fetch_failure_witness :
    (∃ rows keys, processAllPRs [failPR, okPR] = .ok (rows, keys) ∧
      rows.map Prod.fst = [failPR, okPR]) ∧
    processPR failPR = .ok [] := by
  have hgood : ∀ p ∈ [failPR, okPR], goodFetch p.checksFetch ∧ goodFetch p.statusFetch := by
    intro p hp
    rcases List.mem_cons.mp hp with rfl | hp2
    · exact ⟨fun h => absurd h (by decide), fun h => absurd h (by decide)⟩
    · rcases List.mem_cons.mp hp2 with rfl | hp3
      · exact ⟨fun _ => rfl, fun _ => rfl⟩
      · exact absurd hp3 (List.not_mem_nil p)
  exact ⟨(c5_pr_fetch_failure [failPR, okPR] hgood).1,
    (c5_pr_fetch_failure [failPR, okPR] hgood).2 failPR (List.mem_cons_self _ _)
      false none false none rfl rfl rfl rfl⟩

theorem splitChar_sep_not_mem (sep : Char) :
    ∀ (cs : List Char), sep ∉ cs → splitChar sep cs = [cs] := by
  intro cs
  induction cs with
  | nil => intro _; rfl
  | cons c cs ih =>
    intro h
    rw [splitChar, if_neg (by intro hc; subst hc; exact h (List.mem_cons_self c cs))]
    rw [ih (fun hm => h (List.mem_cons_of_mem _ hm))]

theorem splitChar_append (sep : Char) :
    ∀ (xs ys : List Char), sep ∉ xs →
      splitChar sep (xs ++ sep :: ys) = xs :: splitChar sep ys := by
  intro xs
  induction xs with
  | nil =>
    intro ys _
    rw [List.nil_append, splitChar, if_pos rfl]
  | cons x xs ih =>
    intro ys h
    rw [List.cons_append, splitChar, if_neg (by intro hc; subst hc; exact h (List.mem_cons_self _ _))]
    rw [ih ys (fun hm => h (List.mem_cons_of_mem _ hm))]

theorem string_mk_data (s : String) : String.mk s.data = s := by
  cases s; rfl

theorem jsSplit_encode (n t : String) (hn : '|' ∉ n.data) (ht : '|' ∉ t.data) :
    jsSplit (n ++ "|" ++ t) '|' = [n, t] := by
  rw [jsSplit]
  have hd : (n ++ "|" ++ t).data = n.data ++ '|' :: t.data := by
    simp [String.data_append]
  rw [hd, splitChar_append _ _ _ hn, splitChar_sep_not_mem _ _ ht]
  simp [string_mk_data]

theorem append_pipe_assoc (n t : String) : n ++ ("|" ++ t) = n ++ "|" ++ t := by
  apply stringDataInj
  simp [String.data_append]

theorem nameOfKey_encode (n t : String) (hn : '|' ∉ n.data) (ht : '|' ∉ t.data) :
    nameOfKey (n ++ "|" ++ t) = n := by
  rw [nameOfKey, jsSplit_encode n t hn ht]
  rfl

theorem typeOfKey_encode (n t : String) (hn : '|' ∉ n.data) (ht : '|' ∉ t.data) :
    typeOfKey (n ++ "|" ++ t) = t := by
  rw [typeOfKey, jsSplit_encode n t hn ht]
  rfl

theorem wfKeyB_encode (n t : String) (hn : '|' ∉ n.data)
    (ht : t = "github" ∨ t = "external") : wfKeyB (n ++ "|" ++ t) = true := by
  have ht' : '|' ∉ t.data := by rcases ht with rfl | rfl <;> decide
  rw [wfKeyB, jsSplit_encode n t hn ht']
  rcases ht with rfl | rfl <;> rfl

theorem wfKeyB_elim {k : String} (h : wfKeyB k = true) :
    ∃ n t, (t = "github" ∨ t = "external") ∧ nameOfKey k = n ∧ typeOfKey k = t := by
  rw [wfKeyB] at h
  cases hsp : jsSplit k '|' with
  | nil => rw [hsp] at h; exact absurd h (by decide)
  | cons n rest =>
    cases rest with
    | nil => rw [hsp] at h; simp at h
    | cons t rest2 =>
      cases rest2 with
      | nil =>
        rw [hsp] at h
        simp only [Bool.or_eq_true, beq_iff_eq] at h
        exact ⟨n, t, h, by rw [nameOfKey, hsp]; rfl, by rw [typeOfKey, hsp]; rfl⟩
      | cons _ _ => rw [hsp] at h; simp at h

theorem localeCompare_nonpos_iff (x y : String) :
    localeCompare x y ≤ 0 ↔ jsStrLt y x = false := by
  rcases jsStrLt_cases x y with ⟨hxy, hyx, _⟩ | ⟨hxy, hyx, _⟩ | ⟨hxy, hyx, _⟩
  · rw [localeCompare, if_pos hxy]
    constructor
    · intro _; exact hyx
    · intro _; decide
  · rw [localeCompare, if_neg (by simp [hxy]), if_neg (by simp [hyx])]
    constructor
    · intro _; exact hyx
    · intro _; decide
  · rw [localeCompare, if_neg (by simp [hxy]), if_pos hyx]
    constructor
    · intro hc; exact absurd hc (by decide)
    · intro hc; rw [hyx] at hc; exact absurd hc (by simp)

theorem compareCheckKeys_le_iff {a b : String} (ha : wfKeyB a = true) (hb : wfKeyB b = true) :
    compareCheckKeys a b ≤ 0 ↔ columnOrder a b := by
  obtain ⟨na, ta, hta, hna, htya⟩ := wfKeyB_elim ha
  obtain ⟨nb, tb, htb, hnb, htyb⟩ := wfKeyB_elim hb
  rcases hta with rfl | rfl <;> rcases htb with rfl | rfl
  · simp [compareCheckKeys, columnOrder, originRank, docsRank, htya, htyb, hna, hnb,
      localeCompare_nonpos_iff]
  · simp [compareCheckKeys, columnOrder, originRank, docsRank, htya, htyb, hna, hnb]
  · simp [compareCheckKeys, columnOrder, originRank, docsRank, htya, htyb, hna, hnb]
  · by_cases hra : isReadTheDocs na <;> by_cases hrb : isReadTheDocs nb <;>
      simp [compareCheckKeys, columnOrder, originRank, docsRank, htya, htyb, hna, hnb,
        hra, hrb, localeCompare_nonpos_iff]

theorem jsStrLt_false_trans {x y z : String} (h1 : jsStrLt y x = false)
    (h2 : jsStrLt z y = false) : jsStrLt z x = false := by
  have := leS_trans x y z (by simp [h1]) (by simp [h2])
  simpa using this

theorem columnOrder_trans {a b c : String} (h1 : columnOrder a b) (h2 : columnOrder b c) :
    columnOrder a c := by
  rcases h1 with h1 | ⟨he1, h1⟩
  · rcases h2 with h2 | ⟨he2, _⟩
    · exact Or.inl (lt_trans h1 h2)
    · exact Or.inl (he2 ▸ h1)
  · rcases h2 with h2 | ⟨he2, h2⟩
    · exact Or.inl (he1 ▸ h2)
    · refine Or.inr ⟨he1.trans he2, ?_⟩
      rcases h1 with h1 | ⟨hd1, h1⟩
      · rcases h2 with h2 | ⟨hd2, _⟩
        · exact Or.inl (lt_trans h1 h2)
        · exact Or.inl (hd2 ▸ h1)
      · rcases h2 with h2 | ⟨hd2, h2⟩
        · exact Or.inl (hd1 ▸ h2)
        · exact Or.inr ⟨hd1.trans hd2, jsStrLt_false_trans h1 h2⟩

theorem columnOrder_total (a b : String) : columnOrder a b ∨ columnOrder b a := by
  rcases Nat.lt_trichotomy (originRank a) (originRank b) with h | h | h
  · exact Or.inl (Or.inl h)
  · rcases Nat.lt_trichotomy (docsRank a) (docsRank b) with h2 | h2 | h2
    · exact Or.inl (Or.inr ⟨h, Or.inl h2⟩)
    · rcases jsStrLt_cases (nameOfKey a) (nameOfKey b) with ⟨_, hba, _⟩ | ⟨_, hba, _⟩ | ⟨hab, _, _⟩
      · exact Or.inl (Or.inr ⟨h, Or.inr ⟨h2, hba⟩⟩)
      · exact Or.inl (Or.inr ⟨h, Or.inr ⟨h2, hba⟩⟩)
      · exact Or.inr (Or.inr ⟨h.symm, Or.inr ⟨h2.symm, hab⟩⟩)
    · exact Or.inr (Or.inr ⟨h.symm, Or.inl h2⟩)
  · exact Or.inr (Or.inl h)

theorem checkKeyLe_iff_wf {a b : String} (ha : wfKeyB a = true) (hb : wfKeyB b = true) :
    checkKeyLe a b = true ↔ columnOrder a b := by
  rw [checkKeyLe, decide_eq_true_eq]
  exact compareCheckKeys_le_iff ha hb

theorem checkKeyLeT_trans : ∀ (a b c : String), checkKeyLeT a b = true →
    checkKeyLeT b c = true → checkKeyLeT a c = true := by
  intro a b c h1 h2
  by_cases ha : wfKeyB a = true <;> by_cases hb : wfKeyB b = true <;>
    by_cases hc : wfKeyB c = true <;>
    simp only [checkKeyLeT, ha, hb, hc, if_true, if_false, Bool.not_eq_true] at h1 h2 ⊢ <;>
    try simp_all
  · exact (checkKeyLe_iff_wf ha hc).mpr
      (columnOrder_trans ((checkKeyLe_iff_wf ha hb).mp h1) ((checkKeyLe_iff_wf hb hc).mp h2))
  · have := leS_trans a b c (by simp [h1]) (by simp [h2])
    simpa using this

theorem checkKeyLeT_total : ∀ (a b : String), (checkKeyLeT a b || checkKeyLeT b a) = true := by
  intro a b
  by_cases ha : wfKeyB a = true <;> by_cases hb : wfKeyB b = true <;>
    simp only [checkKeyLeT, ha, hb, if_true, if_false] <;> try simp_all
  · rcases columnOrder_total a b with h | h
    · exact Or.inl ((checkKeyLe_iff_wf ha hb).mpr h)
    · exact Or.inr ((checkKeyLe_iff_wf hb ha).mpr h)
  · have := leS_total a b
    simpa using this

theorem sortedCheckNames_pairwise {keys : List String} (h : ∀ k ∈ keys, wfKeyB k = true) :
    List.Pairwise columnOrder (sortedCheckNames keys) := by
  have hcongr : keys.mergeSort checkKeyLe = keys.mergeSort checkKeyLeT :=
    mergeSort_congr _ _ keys (fun a haa b hbb => by
      simp [checkKeyLeT, h a haa, h b hbb])
  have hp : List.Pairwise (fun a b => checkKeyLeT a b = true) (keys.mergeSort checkKeyLeT) :=
    List.sorted_mergeSort checkKeyLeT_trans checkKeyLeT_total keys
  rw [sortedCheckNames, hcongr]
  refine hp.imp_of_mem ?_
  intro a b haa hbb hab
  have ha' := h a (List.mem_mergeSort.mp haa)
  have hb' := h b (List.mem_mergeSort.mp hbb)
  rw [checkKeyLeT, if_pos ha', if_pos hb'] at hab
  exact (checkKeyLe_iff_wf ha' hb').mp hab

theorem mem_foldl_setAdd : ∀ (ks : List String) (acc : List String) (x : String),
    x ∈ ks.foldl setAdd acc ↔ x ∈ acc ∨ x ∈ ks := by
  intro ks
  induction ks with
  | nil => intro acc x; simp
  | cons k ks ih =>
    intro acc x
    rw [List.foldl_cons, ih]
    by_cases hk : k ∈ acc
    · rw [setAdd, if_pos hk]
      simp only [List.mem_cons]
      constructor
      · rintro (h | h)
        · exact Or.inl h
        · exact Or.inr (Or.inr h)
      · rintro (h | rfl | h)
        · exact Or.inl h
        · exact Or.inl hk
        · exact Or.inr h
    · rw [setAdd, if_neg hk]
      simp only [List.mem_append, List.mem_singleton, List.mem_cons]
      tauto

theorem processAllPRsAux_spec :
    ∀ (l : List PRInput) (rows0 : List (PRInput × List (String × CellInfo)))
      (keys0 : List String) r,
      processAllPRsAux l rows0 keys0 = .ok r →
      ∃ newRows, r.1 = rows0 ++ newRows ∧ newRows.map Prod.fst = l ∧
        (∀ pc ∈ newRows, processPR pc.1 = .ok pc.2) ∧
        (∀ k, k ∈ r.2 ↔ k ∈ keys0 ∨ ∃ pc ∈ newRows, k ∈ pc.2.map Prod.fst) := by
  intro l
  induction l with
  | nil =>
    intro rows0 keys0 r h
    simp only [processAllPRsAux, Except.ok.injEq] at h
    subst h
    exact ⟨[], by simp, by simp, by simp, fun k => by simp⟩
  | cons p rest ih =>
    intro rows0 keys0 r h
    rw [processAllPRsAux] at h
    cases hp : processPR p with
    | error e => rw [hp] at h; simp at h
    | ok cs =>
      rw [hp] at h
      obtain ⟨newRows, h1, h2, h3, h4⟩ := ih _ _ _ h
      refine ⟨(p, cs) :: newRows, ?_, ?_, ?_, ?_⟩
      · rw [h1]; simp
      · simp [h2]
      · intro pc hpc
        rcases List.mem_cons.mp hpc with rfl | hpc2
        · exact hp
        · exact h3 pc hpc2
      · intro k
        rw [h4 k, mem_foldl_setAdd]
        constructor
        · rintro ((hk | hk) | ⟨pc, hpc, hk⟩)
          · exact Or.inl hk
          · exact Or.inr ⟨(p, cs), List.mem_cons_self _ _, hk⟩
          · exact Or.inr ⟨pc, List.mem_cons_of_mem _ hpc, hk⟩
        · rintro (hk | ⟨pc, hpc, hk⟩)
          · exact Or.inl (Or.inl hk)
          · rcases List.mem_cons.mp hpc with rfl | hpc2
            · exact Or.inl (Or.inr hk)
            · exact Or.inr ⟨pc, hpc2, hk⟩

theorem objInsert_keys : ∀ (cs : List (String × CellInfo)) (key : String) (v : CellInfo)
    (k : String), k ∈ (objInsert cs key v).map Prod.fst → k = key ∨ k ∈ cs.map Prod.fst := by
  intro cs
  induction cs with
  | nil => intro key v k h; simpa [objInsert] using h
  | cons c rest ih =>
    intro key v k h
    obtain ⟨k0, w⟩ := c
    by_cases hk : k0 = key
    · rw [objInsert, if_pos hk] at h
      simp only [List.map_cons, List.mem_cons] at h ⊢
      tauto
    · rw [objInsert, if_neg hk] at h
      simp only [List.map_cons, List.mem_cons] at h ⊢
      rcases h with h | h
      · exact Or.inr (Or.inl h)
      · rcases ih key v k h with h | h
        · exact Or.inl h
        · exact Or.inr (Or.inr h)

theorem buildChecksCells_keys (runs : List CheckRun) :
    ∀ k ∈ (buildChecksCells runs).map Prod.fst, ∃ run ∈ runs, k = run.name ++ "|github" := by
  have main : ∀ (rs : List CheckRun) (acc : List (String × CellInfo)),
      ∀ k ∈ ((rs.foldl (fun cs run =>
          objInsert cs (run.name ++ "|github") ⟨run.name, checkRunStatus run, "github"⟩)
          acc).map Prod.fst),
        k ∈ acc.map Prod.fst ∨ ∃ run ∈ rs, k = run.name ++ "|github" := by
    intro rs
    induction rs with
    | nil => intro acc k h; exact Or.inl h
    | cons run rs ih =>
      intro acc k h
      rw [List.foldl_cons] at h
      rcases ih _ k h with h2 | ⟨r2, hr2, hk⟩
      · rcases objInsert_keys acc _ _ k h2 with h3 | h3
        · exact Or.inr ⟨run, List.mem_cons_self _ _, h3⟩
        · exact Or.inl h3
      · exact Or.inr ⟨r2, List.mem_cons_of_mem _ hr2, hk⟩
  intro k h
  rcases main runs [] k h with h2 | h2
  · simp at h2
  · exact h2

theorem addStatusCells_keys : ∀ (sts : List StatusEntry) (cs : List (String × CellInfo)),
    ∀ k ∈ (addStatusCells cs sts).map Prod.fst,
      k ∈ cs.map Prod.fst ∨ ∃ st ∈ sts, k = st.context ++ "|external" := by
  intro sts
  induction sts with
  | nil => intro cs k h; exact Or.inl h
  | cons st sts ih =>
    intro cs k h
    rw [addStatusCells, List.foldl_cons] at h
    rcases ih _ k h with h2 | ⟨s2, hs2, hk⟩
    · rcases objInsert_keys cs _ _ k h2 with h3 | h3
      · exact Or.inr ⟨st, List.mem_cons_self _ _, h3⟩
      · exact Or.inl h3
    · exact Or.inr ⟨s2, List.mem_cons_of_mem _ hs2, hk⟩

theorem processPR_keys (p : PRInput) {cs : List (String × CellInfo)}
    (h : processPR p = .ok cs) :
    ∀ k ∈ cs.map Prod.fst,
      (∃ ok runs, p.checksFetch = .response ok (some runs) ∧
        ∃ run ∈ runs, k = run.name ++ "|github") ∨
      (∃ ok sts, p.statusFetch = .response ok (some sts) ∧
        ∃ st ∈ sts, k = st.context ++ "|external") := by
  cases hpc : p.checksFetch with
  | reject => rw [processPR, hpc] at h; simp at h
  | response okC bodyC =>
    cases hps : p.statusFetch with
    | reject => simp [processPR, hpc, hps] at h
    | response okS bodyS =>
      simp only [processPR, hpc, hps] at h
      cases okC with
      | true =>
        cases bodyC with
        | none => simp at h
        | some runs =>
          cases okS with
          | true =>
            cases bodyS with
            | none => simp at h
            | some sts =>
              simp at h
              subst h
              intro k hk
              rcases addStatusCells_keys sts _ k hk with hk2 | ⟨st, hst, hkk⟩
              · exact Or.inl ⟨true, runs, rfl, buildChecksCells_keys runs k hk2⟩
              · exact Or.inr ⟨true, sts, rfl, st, hst, hkk⟩
          | false =>
            simp at h
            subst h
            intro k hk
            exact Or.inl ⟨true, runs, rfl, buildChecksCells_keys runs k hk⟩
      | false =>
        cases okS with
        | true =>
          cases bodyS with
          | none => simp at h
          | some sts =>
            simp at h
            subst h
            intro k hk
            rcases addStatusCells_keys sts _ k hk with hk2 | ⟨st, hst, hkk⟩
            · simp at hk2
            · exact Or.inr ⟨true, sts, rfl, st, hst, hkk⟩
        | false =>
          simp at h
          subst h
          intro k hk
          simp at hk

theorem wfKeyB_of_processPR (p : PRInput) (hwf : prNamesWellFormedB p = true)
    {cs : List (String × CellInfo)} (h : processPR p = .ok cs) :
    ∀ k ∈ cs.map Prod.fst, wfKeyB k = true := by
  intro k hk
  rcases processPR_keys p h k hk with ⟨ok, runs, hpc, run, hrun, rfl⟩ |
    ⟨ok, sts, hps, st, hst, rfl⟩
  · have hnp : '|' ∉ run.name.data := by
      rw [prNamesWellFormedB, hpc] at hwf
      simp only [Bool.and_eq_true, List.all_eq_true] at hwf
      have := hwf.1 run hrun
      simpa using this
    rw [show run.name ++ "|github" = run.name ++ "|" ++ "github" from
      (append_pipe_assoc run.name "github")]
    exact wfKeyB_encode _ _ hnp (Or.inl rfl)
  · have hnp : '|' ∉ st.context.data := by
      rw [prNamesWellFormedB, hps] at hwf
      simp only [Bool.and_eq_true, List.all_eq_true] at hwf
      have := hwf.2 st hst
      simpa using this
    rw [show st.context ++ "|external" = st.context ++ "|" ++ "external" from
      (append_pipe_assoc st.context "external")]
    exact wfKeyB_encode _ _ hnp (Or.inr rfl)

/-- C6 (amended): for pull-request feeds whose check names and status
contexts avoid the separator character of the column keys, the rendered
matrix satisfies the claim: every pull request has a row, the column-key
set is exactly the union over the rows of their observed (name, origin)
pairs, the rendered column order is a permutation of that set that is
pairwise ordered with native-origin columns before external-origin
columns, documentation-service names last among externals and remaining
ties alphabetical, and a pull request without an entry for a column
renders the not-run cell, distinct from any pending cell. -/
theorem c6_pr_matrix_columns (prs : List PRInput)
    (rows : List (PRInput × List (String × CellInfo))) (keys : List String)
    (hwf : ∀ p ∈ prs, prNamesWellFormedB p = true)
    (hrun : processAllPRs prs = .ok (rows, keys)) :
    rows.map Prod.fst = prs ∧
    (∀ k, k ∈ keys ↔ ∃ row ∈ rows, k ∈ row.2.map Prod.fst) ∧
    (sortedCheckNames keys).Perm keys ∧
    List.Pairwise columnOrder (sortedCheckNames keys) ∧
    (∀ row ∈ rows, ∀ k k' c, row.2.lookup k = none → row.2.lookup k' = some c →
      c.status = "pending" → cellView row.2 k ≠ cellView row.2 k') := by
  obtain ⟨newRows, h1, h2, h3, h4⟩ := processAllPRsAux_spec prs [] [] (rows, keys) hrun
  simp only [List.nil_append] at h1
  subst h1
  refine ⟨h2, fun k => (h4 k).trans (by simp), ?_, ?_, ?_⟩
  · rw [sortedCheckNames]
    exact List.mergeSort_perm keys checkKeyLe
  · apply sortedCheckNames_pairwise
    intro k hk
    rcases (h4 k).mp hk with hk0 | ⟨pc, hpc, hkk⟩
    · simp at hk0
    · have hproc := h3 pc hpc
      have hwfp : prNamesWellFormedB pc.1 = true := hwf pc.1 (by
        rw [← h2]; exact List.mem_map_of_mem Prod.fst hpc)
      exact wfKeyB_of_processPR pc.1 hwfp hproc k hkk
  · intro row _ k k' c hnone hsome hpending
    intro he
    simp only [cellView, hnone, hsome, hpending] at he
    have hcc := congrArg CellView.cssClass he
    dsimp only at hcc
    exact absurd hcc (by decide)

/-- C6 counterexample: a native check-run named a|b gives the github-origin
column keyed a|b|github, yet the comparator splits that key at every
separator and reads b as its origin tag, so the sorted column order puts
the external-origin column c|external before the native-origin column,
contradicting the claimed native-before-external order. -/
theorem c6_column_order_counterexample :
    processAllPRs [pipePR] =
      .ok ([(pipePR,
        [("a|b|github", ⟨"a|b", "success", "github"⟩),
         ("c|external", ⟨"c", "success", "external"⟩)])],
        ["a|b|github", "c|external"]) ∧
    sortedCheckNames ["a|b|github", "c|external"] = ["c|external", "a|b|github"] := by
  constructor
  · rfl
  · rw [sortedCheckNames, mergeSort_pair]
    simp only [show checkKeyLe "a|b|github" "c|external" = false from by decide]
    simp

/-- Witness for C6 (amended) on a pull request with a native build check
and a pending external status: there is one row, the sorted columns are
pairwise in the claimed order, and a column the pull request lacks renders
differently from its pending column. -/
theorem c6_pr_matrix_columns_witness :
    ([(wfPR, wfCells)]).map Prod.fst = [wfPR] ∧
    List.Pairwise columnOrder (sortedCheckNames ["build|github", "ci/jenkins|external"]) ∧
    cellView wfCells "lint|github" ≠ cellView wfCells "ci/jenkins|external" := by
  have hwf : ∀ p ∈ [wfPR], prNamesWellFormedB p = true := by
    intro p hp
    rcases List.mem_cons.mp hp with rfl | hp2
    · decide
    · exact absurd hp2 (List.not_mem_nil p)
  have hth := c6_pr_matrix_columns [wfPR] [(wfPR, wfCells)]
    ["build|github", "ci/jenkins|external"] hwf rfl
  exact ⟨hth.1, hth.2.2.2.1,
    hth.2.2.2.2 (wfPR, wfCells) (List.mem_cons_self _ _) "lint|github" "ci/jenkins|external"
      ⟨"ci/jenkins", "pending", "external"⟩ rfl rfl rfl⟩
